import Mathlib

/-!
Verification of the Monapy step-combinator core (`monapy/step/core.py`).

A Python step is an object whose `make` method maps one input value to a
finite sequence of output values.  We embed a step's `make` method as a
function `Make α := α → List α` and translate each composite step's `make`
from the source:

* `make_all` (Step.make_all, lines 81-87): flat-map of `make` over an input
  sequence, preserving order;
* `StepChain.make` (lines 163-173): guard on the empty chain, then Python's
  `reduce` of `make_all` over `chain([[value]], self._chain)`, i.e. a left
  fold starting from the one-element sequence `[value]`;
* `OrChain.make` (lines 353-364): try each step in order, peek one element,
  yield the first non-empty output whole;
* `LoopStep.make` (lines 232-254): feedback rounds, embedded with a fuel
  bound because the Python generator may run forever (`none` = the loop has
  not terminated within `fuel` rounds);
* the structural packers (`TupleStep.make`, `ListStep.make`, `DictStep.make`,
  `SetStep.make`): zip-to-shortest and pull-one-per-round recursions.

Construction-time behaviour (`to_step`, the packer constructors and
`StepChain.__init__`, `StepChain.bind`, `StepChain.loop`) is embedded
separately on a syntactic step type `Stp` and a dynamic value type `PyObj`,
with Python exceptions modelled by `Except PyErr`.
-/

section Semantics

variable {α : Type} {κ : Type}

/-- A step's `make` method: one input value to a finite output sequence. -/
abbrev Make (α : Type) : Type := α → List α

/-- Embedding of `Step.make_all` (core.py lines 81-87): flat-map `make` over the inputs,
preserving order. -/
def make_all (f : Make α) (l : List α) : List α :=
  l.flatMap f

/-- The base `Step.make` body (core.py lines 89-92): log a warning line and
return an empty iterator.  The first component is the emitted log. -/
def Step.baseMakeWithLog (_v : α) : List String × List α :=
  (["Calling Step.make"], [])

/-- The value part of the base `Step.make`: always the empty sequence. -/
def Step.baseMake : Make α :=
  fun v => (Step.baseMakeWithLog v).2

/-- Embedding of `StepChain.make` (core.py lines 163-173): if the owned chain is empty,
yield nothing; otherwise Python's `reduce(lambda it, s: s.make_all(it),
chain([[value]], self._chain))`, i.e. fold `make_all` left-to-right over the
owned steps starting from the one-element sequence `[value]`. -/
def StepChain.make (cs : List (Make α)) (v : α) : List α :=
  if cs.isEmpty then []
  else cs.foldl (fun it f => make_all f it) [v]

/-- Embedding of `OrChain.make` (core.py lines 353-364): for each step in order, peek one
element of its output; if empty move on, otherwise yield that whole output
and stop. -/
def OrChain.make (cs : List (Make α)) (v : α) : List α :=
  match cs with
  | [] => []
  | f :: rest =>
    let r := f v
    if r.isEmpty then OrChain.make rest v else r

theorem make_all_nil (f : Make α) : make_all f [] = [] := rfl

theorem make_all_baseMake (l : List α) : make_all Step.baseMake l = [] := by
  induction l with
  | nil => rfl
  | cons x xs ih =>
    simp [make_all, Step.baseMake, Step.baseMakeWithLog]

theorem foldl_make_all_nil (cs : List (Make α)) :
    cs.foldl (fun it f => make_all f it) [] = [] := by
  induction cs with
  | nil => rfl
  | cons g rest ih => simpa [make_all] using ih

end Semantics

section ClaimC1

variable {α : Type}

/-- C1: for every non-empty list of steps `S` and every seed `v`,
`StepChain(S).make(v)` yields exactly the elements, in order, of the
sequence obtained by folding `make_all` left-to-right through the steps of
`S` starting from the one-element sequence `[v]`. -/
theorem stepChain_make_spec (cs : List (Make α)) (v : α) (h : cs ≠ []) :
    StepChain.make cs v = cs.foldl (fun it f => make_all f it) [v] := by
  have : cs.isEmpty = false := by
    cases cs with
    | nil => exact absurd rfl h
    | cons a t => rfl
  simp [StepChain.make, this]

/-- A 1-step step over naturals duplicating its input, used in witnesses. -/
def sDup : Make Nat := fun n => [n, n + 1]

/-- A step over naturals scaling its input, used in witnesses. -/
def sTen : Make Nat := fun n => [n * 10]

theorem stepChain_make_spec_witness :
    StepChain.make [sDup, sTen] 0 =
      [sDup, sTen].foldl (fun it f => make_all f it) [0] :=
  stepChain_make_spec [sDup, sTen] 0 (by simp)

end ClaimC1

section ClaimC3

variable {α : Type}

/-- C3: `OrChain(S).make(v)` yields exactly the full output of the first
step of `S` whose output is non-empty (nothing when `S` is empty or every
output is empty), and the steps after the first non-empty one are
irrelevant: replacing the tail does not change the result. -/
theorem orChain_make_spec (cs : List (Make α)) (v : α) :
    OrChain.make cs v = ((cs.map (fun f => f v)).find? (fun r => !r.isEmpty)).getD [] ∧
    ∀ pre (f : Make α) rest, (∀ g ∈ pre, g v = []) → f v ≠ [] →
      OrChain.make (pre ++ f :: rest) v = f v := by
  constructor
  · induction cs with
    | nil => rfl
    | cons g rest ih =>
      by_cases hg : (g v).isEmpty
      · simp [OrChain.make, hg, List.find?, ih]
      · simp [OrChain.make, hg, List.find?]
  · intro pre f rest hpre hf
    induction pre with
    | nil =>
      have : (f v).isEmpty = false := by
        cases hfv : f v with
        | nil => exact absurd hfv hf
        | cons a t => rfl
      simp [OrChain.make, this]
    | cons g tl ih =>
      have hg : g v = [] := hpre g (by simp)
      have htl : ∀ g ∈ tl, g v = [] := fun g hmem => hpre g (by simp [hmem])
      simpa [OrChain.make, hg] using ih htl

/-- An empty-output step over naturals, used in witnesses. -/
def sNone : Make Nat := fun _ => []

theorem orChain_make_spec_witness :
    OrChain.make [sNone, sDup] 0 =
      (([sNone, sDup].map (fun f => f 0)).find? (fun r => !r.isEmpty)).getD [] ∧
    OrChain.make ([sNone] ++ sDup :: [sTen]) 0 = sDup 0 := by
  refine ⟨(orChain_make_spec [sNone, sDup] 0).1, ?_⟩
  refine (orChain_make_spec [sNone, sDup] 0).2 [sNone] sDup [sTen] ?_ ?_
  · intro g hg
    simp at hg
    subst hg
    rfl
  · decide

end ClaimC3

section ClaimC8

variable {α : Type}

/-- C8: the base (un-overridden) `Step.make` does not raise: it emits a
diagnostic warning line and returns an empty sequence, and a chain pipeline
containing it keeps evaluating (to the empty output) rather than halting. -/
theorem base_make_spec (v : α) (pre post : List (Make α)) :
    Step.baseMakeWithLog v = (["Calling Step.make"], ([] : List α)) ∧
    Step.baseMake v = [] ∧
    StepChain.make (pre ++ Step.baseMake :: post) v = [] := by
  refine ⟨rfl, rfl, ?_⟩
  have hne : (pre ++ Step.baseMake :: post).isEmpty = false := by
    cases pre <;> rfl
  simp only [StepChain.make, hne, Bool.false_eq_true, if_false, List.foldl_append,
    List.foldl_cons]
  rw [make_all_baseMake]
  exact foldl_make_all_nil post

end ClaimC8

section LoopSemantics

variable {α : Type}

/-- The feedback rounds of `LoopStep.make` (core.py lines 232-254): round 0
is the primary step's seed output `A.make(v)`; round `n+1` feeds round `n`
through `B.make_all` then `A.make_all` (loop step first, primary second,
matching `reduce` over `chain([iterable], [self._loop_step, self._step])`). -/
def LoopStep.round (A B : Make α) (v : α) : Nat → List α
  | 0 => A v
  | n + 1 => make_all A (make_all B (LoopStep.round A B v n))

/-- The `while True` driver of `LoopStep.make`: from the just-consumed
sequence, build the next round, peek one element, stop on an empty round,
otherwise yield the round and continue.  `fuel` bounds the number of
rounds; `none` means the generator has not terminated within `fuel`
rounds. -/
def LoopStep.go (A B : Make α) : List α → Nat → Option (List α)
  | _, 0 => none
  | cur, fuel + 1 =>
    let nxt := make_all A (make_all B cur)
    if nxt.isEmpty then some []
    else (LoopStep.go A B nxt fuel).map (fun out => nxt ++ out)

/-- Embedding of `LoopStep.make` (core.py lines 232-254): yield every element of
`A.make(v)`, then run the feedback driver on that sequence. -/
def LoopStep.make (A B : Make α) (v : α) (fuel : Nat) : Option (List α) :=
  (LoopStep.go A B (A v) fuel).map (fun out => A v ++ out)

theorem LoopStep.round_succ_empty (A B : Make α) (v : α) (n : Nat)
    (h : LoopStep.round A B v n = []) : LoopStep.round A B v (n + 1) = [] := by
  simp [LoopStep.round, h, make_all]

theorem LoopStep.round_empty_mono (A B : Make α) (v : α) {n m : Nat}
    (h : LoopStep.round A B v n = []) (hnm : n ≤ m) :
    LoopStep.round A B v m = [] := by
  induction m with
  | zero =>
    have : n = 0 := Nat.le_zero.mp hnm
    subst this
    exact h
  | succ k ih =>
    rcases Nat.lt_or_ge n (k + 1) with hlt | hge
    · exact LoopStep.round_succ_empty A B v k (ih (Nat.lt_succ_iff.mp hlt))
    · have : n = k + 1 := Nat.le_antisymm hnm hge
      subst this
      exact h

/-- Output of the feedback driver starting after round `n`: the
concatenation of rounds `n+1 .. n+j`. -/
def LoopStep.outFrom (A B : Make α) (v : α) (n j : Nat) : List α :=
  ((List.range j).map (fun i => LoopStep.round A B v (n + 1 + i))).flatten

theorem LoopStep.go_round_eq (A B : Make α) (v : α) :
    ∀ m fuel n, LoopStep.round A B v (n + m + 1) = [] → m < fuel →
      LoopStep.go A B (LoopStep.round A B v n) fuel =
        some (LoopStep.outFrom A B v n m) := by
  intro m
  induction m with
  | zero =>
    intro fuel n hend hf
    cases fuel with
    | zero => exact absurd hf (by omega)
    | succ f =>
      have hnx : make_all A (make_all B (LoopStep.round A B v n)) = [] := by
        simpa [LoopStep.round] using hend
      simp [LoopStep.go, hnx, LoopStep.outFrom]
  | succ m ih =>
    intro fuel n hend hf
    cases fuel with
    | zero => exact absurd hf (by omega)
    | succ f =>
      have hnx : make_all A (make_all B (LoopStep.round A B v n)) =
          LoopStep.round A B v (n + 1) := by
        simp [LoopStep.round]
      by_cases hz : LoopStep.round A B v (n + 1) = []
      · have hall : ∀ i < m + 1, LoopStep.round A B v (n + 1 + i) = [] := by
          intro i _
          exact LoopStep.round_empty_mono A B v hz (by omega)
        have hjoin : LoopStep.outFrom A B v n (m + 1) = [] := by
          simp only [LoopStep.outFrom, List.flatten_eq_nil_iff]
          intro l hl
          obtain ⟨i, hi, rfl⟩ := List.mem_map.mp hl
          exact hall i (List.mem_range.mp hi)
        simp [LoopStep.go, hnx, hz, hjoin]
      · have hie : (LoopStep.round A B v (n + 1)).isEmpty = false := by
          cases hc : LoopStep.round A B v (n + 1) with
          | nil => exact absurd hc hz
          | cons a t => rfl
        have hrec := ih f (n + 1) (by
          have : n + 1 + m + 1 = n + (m + 1) + 1 := by omega
          rw [this]
          exact hend) (by omega)
        have hout : LoopStep.outFrom A B v n (m + 1) =
            LoopStep.round A B v (n + 1) ++ LoopStep.outFrom A B v (n + 1) m := by
          unfold LoopStep.outFrom
          rw [List.range_succ_eq_map, List.map_cons, List.flatten_cons, List.map_map]
          congr 1
          refine congrArg List.flatten (List.map_congr_left ?_)
          intro i _
          simp only [Function.comp_apply, Nat.succ_eq_add_one]
          congr 1
          omega
        simp only [LoopStep.go, hnx, hie, Bool.false_eq_true, if_false, hrec,
          Option.map_some']
        rw [hout]

theorem LoopStep.go_none (A B : Make α) (v : α) :
    ∀ fuel n, (∀ m, m < fuel → LoopStep.round A B v (n + 1 + m) ≠ []) →
      LoopStep.go A B (LoopStep.round A B v n) fuel = none := by
  intro fuel
  induction fuel with
  | zero => intro n _; rfl
  | succ f ih =>
    intro n h
    have hnx : make_all A (make_all B (LoopStep.round A B v n)) =
        LoopStep.round A B v (n + 1) := by
      simp [LoopStep.round]
    have hz : LoopStep.round A B v (n + 1) ≠ [] := by
      have := h 0 (by omega)
      simpa using this
    have hie : (LoopStep.round A B v (n + 1)).isEmpty = false := by
      cases hc : LoopStep.round A B v (n + 1) with
      | nil => exact absurd hc hz
      | cons a t => rfl
    have hrec := ih (n + 1) (by
      intro m hm
      have := h (m + 1) (by omega)
      have harg : n + 1 + (m + 1) = n + 1 + 1 + m := by omega
      rwa [harg] at this)
    simp [LoopStep.go, hnx, hie, hrec]

theorem LoopStep.go_mem (A B : Make α) :
    ∀ fuel (cur out : List α), LoopStep.go A B cur fuel = some out →
      ∀ x ∈ out, ∃ w, x ∈ A w := by
  intro fuel
  induction fuel with
  | zero => intro cur out h; cases h
  | succ f ih =>
    intro cur out h x hx
    by_cases hz : (make_all A (make_all B cur)).isEmpty
    · simp [LoopStep.go, hz] at h
      subst h
      cases hx
    · simp only [LoopStep.go, hz, Bool.false_eq_true, if_false] at h
      obtain ⟨out', hgo, rfl⟩ := Option.map_eq_some'.mp h
      rcases List.mem_append.mp hx with hx | hx
      · obtain ⟨w, _, hw⟩ := List.mem_flatMap.mp hx
        exact ⟨w, hw⟩
      · exact ih _ _ hgo x hx

end LoopSemantics

section ClaimC2

variable {α : Type}

/-- C2: `LoopStep(A, B).make(v)` first yields every element of `A.make(v)`
(round 0); each later round feeds the just-consumed sequence through
`B.make_all` then `A.make_all`; the generator stops exactly when a round
comes out empty, and then the output is the concatenation of the rounds in
order; if no round within the fuel bound is empty the run does not
terminate; and every yielded element was produced by the primary step `A`
on some input. -/
theorem loopStep_make_spec (A B : Make α) (v : α) :
    (∀ n fuel, LoopStep.round A B v (n + 1) = [] → n < fuel →
      LoopStep.make A B v fuel =
        some (((List.range (n + 1)).map (LoopStep.round A B v)).flatten)) ∧
    (∀ fuel, (∀ m, m < fuel → LoopStep.round A B v (m + 1) ≠ []) →
      LoopStep.make A B v fuel = none) ∧
    (∀ fuel out, LoopStep.make A B v fuel = some out →
      ∀ x ∈ out, ∃ w, x ∈ A w) := by
  refine ⟨?_, ?_, ?_⟩
  · intro n fuel hend hf
    have hgo := LoopStep.go_round_eq A B v n fuel 0 (by simpa using hend) hf
    have hmk : LoopStep.make A B v fuel =
        (LoopStep.go A B (LoopStep.round A B v 0) fuel).map
          (fun out => LoopStep.round A B v 0 ++ out) := rfl
    rw [hmk, hgo]
    have hcat : ((List.range (n + 1)).map (LoopStep.round A B v)).flatten =
        LoopStep.round A B v 0 ++ LoopStep.outFrom A B v 0 n := by
      rw [List.range_succ_eq_map, List.map_cons, List.flatten_cons]
      congr 1
      unfold LoopStep.outFrom
      rw [List.map_map]
      refine congrArg List.flatten (List.map_congr_left ?_)
      intro i _
      simp only [Function.comp_apply, Nat.succ_eq_add_one]
      congr 1
      omega
    rw [Option.map_some']
    rw [hcat]
  · intro fuel h
    have hgo := LoopStep.go_none A B v fuel 0 (by
      intro m hm
      have harg : 0 + 1 + m = m + 1 := by omega
      rw [harg]
      exact h m hm)
    have hmk : LoopStep.make A B v fuel =
        (LoopStep.go A B (LoopStep.round A B v 0) fuel).map
          (fun out => LoopStep.round A B v 0 ++ out) := rfl
    rw [hmk, hgo]
    rfl
  · intro fuel out h x hx
    obtain ⟨out', hgo, rfl⟩ := Option.map_eq_some'.mp h
    rcases List.mem_append.mp hx with hx | hx
    · exact ⟨v, hx⟩
    · exact LoopStep.go_mem A B fuel _ _ hgo x hx

/-- A primary step that fires only on seed 0, used in the loop witness. -/
def loopA : Make Nat := fun n => if n = 0 then [1] else []

/-- An identity-like loop step, used in the loop witness. -/
def loopB : Make Nat := fun n => [n]

theorem loopStep_make_spec_witness :
    LoopStep.make loopA loopB 0 3 = some [1] := by
  have h := (loopStep_make_spec loopA loopB 0).1 0 3 (by decide) (by decide)
  rw [h]
  decide

end ClaimC2

section TuplePacker

variable {α : Type}

/-- Collect a list of optional values, failing when any is `none`: the
shape of one zipped output position. -/
def allSome : List (Option α) → Option (List α)
  | [] => some []
  | none :: _ => none
  | some x :: rest => (allSome rest).map (fun xs => x :: xs)

/-- Pull one head off every list, failing when some list is exhausted:
one pulling round of Python's `zip`. -/
def heads? : List (List α) → Option (List α × List (List α))
  | [] => some ([], [])
  | [] :: _ => none
  | (x :: xs) :: rest => (heads? rest).map (fun p => (x :: p.1, xs :: p.2))

/-- Python `zip(*iterables)` driven by the first iterable: emit one tuple per
round while every iterable still has an element. -/
def zipAllAux : List α → List (List α) → List (List α)
  | [], _ => []
  | x :: xs, rest =>
    match heads? rest with
    | none => []
    | some (hs, ts) => (x :: hs) :: zipAllAux xs ts

/-- Python `zip(*iterables)`: stops at the shortest iterable; with no
iterables it yields nothing. -/
def zipAll : List (List α) → List (List α)
  | [] => []
  | l :: rest => zipAllAux l rest

/-- Embedding of `TupleStep.make` (core.py lines 427-433): run every child on the one
upstream value and zip the outputs positionally (each output tuple is
modelled as the list of its components, in child order). -/
def TupleStep.make (cs : List (Make α)) (v : α) : List (List α) :=
  zipAll (cs.map (fun f => f v))

/-- Minimum of a non-empty list of naturals (0 on the empty list). -/
def natMin : List Nat → Nat
  | [] => 0
  | [n] => n
  | n :: rest => min n (natMin rest)

theorem allSome_of_none_mem {l : List (Option α)} (h : none ∈ l) :
    allSome l = none := by
  induction l with
  | nil => cases h
  | cons o rest ih =>
    cases o with
    | none => rfl
    | some x =>
      have : none ∈ rest := by
        rcases List.mem_cons.mp h with hc | hc
        · cases hc
        · exact hc
      simp [allSome, ih this]

theorem allSome_map_some (l : List α) : allSome (l.map some) = some l := by
  induction l with
  | nil => rfl
  | cons x rest ih => simp [allSome, ih]

theorem heads?_eq_none {rest : List (List α)} (h : heads? rest = none) :
    ∃ l ∈ rest, l = [] := by
  induction rest with
  | nil => cases h
  | cons l rs ih =>
    cases l with
    | nil => exact ⟨[], by simp⟩
    | cons x xs =>
      have hrs : heads? rs = none := by
        by_contra hne
        obtain ⟨p, hp⟩ := Option.ne_none_iff_exists.mp hne
        rw [heads?, ← hp] at h
        cases h
      obtain ⟨l, hl, hnil⟩ := ih hrs
      exact ⟨l, by simp [hl], hnil⟩

theorem heads?_eq_some {rest : List (List α)} :
    ∀ {hs ts}, heads? rest = some (hs, ts) →
      (rest.map (fun l => l[0]?) = hs.map some) ∧
      (∀ i, rest.map (fun l => l[i + 1]?) = ts.map (fun l => l[i]?)) ∧
      hs.length = rest.length ∧ ts.length = rest.length := by
  induction rest with
  | nil =>
    intro hs ts h
    rw [heads?] at h
    obtain ⟨h1, h2⟩ := Prod.mk.injEq .. ▸ Option.some.injEq .. ▸ h
    simp_all
  | cons l rs ih =>
    intro hs ts h
    cases l with
    | nil => cases h
    | cons x xs =>
      rw [heads?] at h
      obtain ⟨p, hp, heq⟩ := Option.map_eq_some'.mp h
      obtain ⟨hs', ts'⟩ := p
      obtain ⟨h1, h2⟩ := Prod.mk.injEq .. ▸ heq
      obtain ⟨ihA, ihB, ihL1, ihL2⟩ := ih hp
      subst h1
      subst h2
      refine ⟨by simp [ihA], fun i => by simp [ihB i], by simp [ihL1], by simp [ihL2]⟩

theorem heads?_map_length {rest : List (List α)} :
    ∀ {hs ts}, heads? rest = some (hs, ts) →
      rest.map List.length = (ts.map List.length).map (fun n => n + 1) := by
  induction rest with
  | nil =>
    intro hs ts h
    rw [heads?] at h
    obtain ⟨h1, h2⟩ := Prod.mk.injEq .. ▸ Option.some.injEq .. ▸ h
    simp_all
  | cons l rs ih =>
    intro hs ts h
    cases l with
    | nil => cases h
    | cons y ys =>
      rw [heads?] at h
      obtain ⟨q, hq, heq⟩ := Option.map_eq_some'.mp h
      obtain ⟨hs', ts'⟩ := q
      obtain ⟨h1, h2⟩ := Prod.mk.injEq .. ▸ heq
      subst h1
      subst h2
      simp only [List.map_cons, List.length_cons]
      exact congrArg (fun t => (ys.length + 1) :: t) (ih hq)

theorem zipAllAux_getElem? :
    ∀ (l : List α) (rest : List (List α)) (i : Nat),
      (zipAllAux l rest)[i]? = allSome ((l :: rest).map (fun l => l[i]?)) := by
  intro l
  induction l with
  | nil =>
    intro rest i
    simp [zipAllAux, allSome]
  | cons x xs ih =>
    intro rest i
    cases hh : heads? rest with
    | none =>
      obtain ⟨l, hl, rfl⟩ := heads?_eq_none hh
      have hmem : none ∈ ((x :: xs) :: rest).map (fun l => l[i]?) := by
        refine List.mem_map.mpr ⟨[], by simp [hl], by simp⟩
      rw [allSome_of_none_mem hmem]
      simp [zipAllAux, hh]
    | some p =>
      obtain ⟨hs, ts⟩ := p
      obtain ⟨hA, hB, _, _⟩ := heads?_eq_some hh
      cases i with
      | zero =>
        simp only [zipAllAux, hh, List.getElem?_cons_zero, List.map_cons, hA,
          allSome]
        rw [allSome_map_some]
        rfl
      | succ i =>
        simp only [zipAllAux, hh, List.getElem?_cons_succ, List.map_cons, hB i,
          allSome, ih ts i, List.map_cons]

theorem foldr_min_zero (ns : List Nat) : ns.foldr min 0 = 0 := by
  induction ns with
  | nil => rfl
  | cons a t ih => simp [ih]

theorem foldr_min_of_zero_mem {ns : List Nat} (h : 0 ∈ ns) (m : Nat) :
    ns.foldr min m = 0 := by
  induction ns with
  | nil => cases h
  | cons a t ih =>
    rcases List.mem_cons.mp h with hc | hc
    · simp [← hc]
    · simp [ih hc]

theorem foldr_min_map_succ (ns : List Nat) (m : Nat) :
    ((ns.map (fun n => n + 1)).foldr min (m + 1)) = ns.foldr min m + 1 := by
  induction ns with
  | nil => rfl
  | cons a t ih =>
    simp only [List.map_cons, List.foldr_cons, ih]
    omega

theorem zipAllAux_length :
    ∀ (l : List α) (rest : List (List α)),
      (zipAllAux l rest).length = (rest.map List.length).foldr min l.length := by
  intro l
  induction l with
  | nil =>
    intro rest
    simp [zipAllAux, foldr_min_zero]
  | cons x xs ih =>
    intro rest
    cases hh : heads? rest with
    | none =>
      obtain ⟨l, hl, rfl⟩ := heads?_eq_none hh
      have hmem : 0 ∈ rest.map List.length :=
        List.mem_map.mpr ⟨[], hl, rfl⟩
      simp [zipAllAux, hh, foldr_min_of_zero_mem hmem]
    | some p =>
      obtain ⟨hs, ts⟩ := p
      have hlen := heads?_map_length hh
      simp only [zipAllAux, hh, List.length_cons, ih ts, hlen, foldr_min_map_succ]

theorem zipAllAux_mem_length :
    ∀ (l : List α) (rest : List (List α)) (t : List α),
      t ∈ zipAllAux l rest → t.length = rest.length + 1 := by
  intro l
  induction l with
  | nil => intro rest t h; cases h
  | cons x xs ih =>
    intro rest t h
    cases hh : heads? rest with
    | none => rw [zipAllAux, hh] at h; cases h
    | some p =>
      obtain ⟨hs, ts⟩ := p
      obtain ⟨_, _, hL1, hL2⟩ := heads?_eq_some hh
      rw [zipAllAux, hh] at h
      rcases List.mem_cons.mp h with hc | hc
      · simp [hc, hL1]
      · rw [ih ts t hc, hL2]

theorem natMin_eq_foldr : ∀ (n : Nat) (ns : List Nat),
    natMin (n :: ns) = ns.foldr min n := by
  have swap : ∀ (t : List Nat) (a b : Nat),
      min a (t.foldr min b) = min b (t.foldr min a) := by
    intro t
    induction t with
    | nil => intro a b; exact Nat.min_comm a b
    | cons c t ih =>
      intro a b
      simp only [List.foldr_cons]
      rw [Nat.min_left_comm a c, ih a b, Nat.min_left_comm c b]
  intro n ns
  induction ns generalizing n with
  | nil => rfl
  | cons m t ih =>
    show min n (natMin (m :: t)) = (m :: t).foldr min n
    rw [ih m, List.foldr_cons, swap t n m]

end TuplePacker

section ClaimC4

variable {α : Type}

/-- C4: for children with output lengths `L1..Ln` (`n ≥ 1`),
`TupleStep.make` yields exactly `min L1..Ln` tuples; position `i` of the
output is defined exactly when every child has an `i`-th element and then
pairs those elements positionally; and every produced tuple is full (one
component per child, no partial tuples). -/
theorem tupleStep_make_spec (cs : List (Make α)) (v : α) (h : cs ≠ []) :
    (TupleStep.make cs v).length = natMin (cs.map (fun f => (f v).length)) ∧
    (∀ i : Nat, (TupleStep.make cs v)[i]? =
      allSome ((cs.map (fun f => f v)).map (fun l => l[i]?))) ∧
    (∀ t ∈ TupleStep.make cs v, t.length = cs.length) := by
  obtain ⟨c, rest, rfl⟩ := List.exists_cons_of_ne_nil h
  have hmk : TupleStep.make (c :: rest) v =
      zipAllAux (c v) (rest.map (fun f => f v)) := rfl
  refine ⟨?_, ?_, ?_⟩
  · rw [hmk, zipAllAux_length]
    rw [List.map_cons, natMin_eq_foldr]
    congr 1
    rw [List.map_map]
    rfl
  · intro i
    rw [hmk, zipAllAux_getElem?]
    rfl
  · intro t ht
    rw [hmk] at ht
    have := zipAllAux_mem_length (c v) (rest.map (fun f => f v)) t ht
    simpa using this

/-- A three-element child, used in the tuple witness. -/
def tupA : Make Nat := fun n => [n, n + 1, n + 2]

/-- A two-element child, used in the tuple witness. -/
def tupB : Make Nat := fun n => [n + 100, n + 101]

theorem tupleStep_make_spec_witness :
    (TupleStep.make [tupA, tupB] 0).length =
      natMin ([tupA, tupB].map (fun f => (f 0).length)) ∧
    natMin ([tupA, tupB].map (fun f => (f 0).length)) = 2 := by
  refine ⟨(tupleStep_make_spec [tupA, tupB] 0 (by simp)).1, by decide⟩

end ClaimC4

section RoundPackers

variable {α : Type} {κ : Type}

/-- Maximum of the lengths of a list of lists (0 when there are none). -/
def maxLen (ls : List (List α)) : Nat :=
  (ls.map List.length).foldr max 0

theorem maxLen_cons (l : List α) (rs : List (List α)) :
    maxLen (l :: rs) = max l.length (maxLen rs) := rfl

theorem sum_len_tail_le (ls : List (List α)) :
    ((ls.map List.tail).map List.length).sum ≤ (ls.map List.length).sum := by
  induction ls with
  | nil => simp
  | cons l rs ih =>
    simp only [List.map_cons, List.sum_cons]
    have hl : l.tail.length ≤ l.length := by
      cases l <;> simp
    omega

theorem sum_len_tail_lt {ls : List (List α)} (h : ∃ l ∈ ls, l ≠ []) :
    ((ls.map List.tail).map List.length).sum < (ls.map List.length).sum := by
  induction ls with
  | nil => simp at h
  | cons l rs ih =>
    simp only [List.map_cons, List.sum_cons]
    obtain ⟨l', hl', hne⟩ := h
    rcases List.mem_cons.mp hl' with hc | hc
    · subst hc
      have h1 : l'.tail.length < l'.length := by
        cases l' with
        | nil => exact absurd rfl hne
        | cons a t => simp
      have h2 := sum_len_tail_le rs
      omega
    · have h1 : l.tail.length ≤ l.length := by cases l <;> simp
      have h2 := ih ⟨l', hc, hne⟩
      omega

theorem filterMap_head?_eq_nil_iff (ls : List (List α)) :
    ls.filterMap List.head? = [] ↔ ∀ l ∈ ls, l = [] := by
  induction ls with
  | nil => simp
  | cons l rs ih =>
    cases l with
    | nil => simp [List.filterMap_cons, ih]
    | cons a t => simp [List.filterMap_cons]

theorem maxLen_eq_zero_iff (ls : List (List α)) :
    maxLen ls = 0 ↔ ∀ l ∈ ls, l = [] := by
  induction ls with
  | nil => simp [maxLen]
  | cons l rs ih =>
    rw [maxLen_cons, Nat.max_eq_zero_iff, List.length_eq_zero, ih]
    simp [List.forall_mem_cons]

theorem maxLen_map_tail (ls : List (List α)) :
    maxLen (ls.map List.tail) = maxLen ls - 1 := by
  induction ls with
  | nil => simp [maxLen]
  | cons l rs ih =>
    rw [List.map_cons, maxLen_cons, maxLen_cons, ih, List.length_tail]
    omega

/-- The `while True` round loop shared by `ListStep.make` (core.py lines
496-514), `DictStep.make` (lines 590-611) and `SetStep.make` (lines
675-693): each round pulls one value from every not-yet-exhausted source,
keeps the values in source order, and the loop stops as soon as a round
collects nothing. -/
def roundsList (ls : List (List α)) : List (List α) :=
  if hguard : (ls.filterMap List.head?).isEmpty = true then []
  else ls.filterMap List.head? :: roundsList (ls.map List.tail)
termination_by (ls.map List.length).sum
decreasing_by
  apply sum_len_tail_lt
  by_contra hno
  push_neg at hno
  exact hguard (List.isEmpty_iff.mpr ((filterMap_head?_eq_nil_iff ls).mpr hno))

/-- Embedding of `SetStep.make`'s round loop (core.py lines 675-693): as `roundsList`,
but each round is a Python set, so values that compare equal collapse; the
loop still stops exactly when a round pulls nothing (a round's set is empty
iff nothing was pulled). -/
def roundsSet [DecidableEq α] (ls : List (List α)) : List (List α) :=
  if hguard : (ls.filterMap List.head?).isEmpty = true then []
  else (ls.filterMap List.head?).dedup :: roundsSet (ls.map List.tail)
termination_by (ls.map List.length).sum
decreasing_by
  apply sum_len_tail_lt
  by_contra hno
  push_neg at hno
  exact hguard (List.isEmpty_iff.mpr ((filterMap_head?_eq_nil_iff ls).mpr hno))

theorem head?_eq_getElem?_zero (l : List α) : l.head? = l[0]? := by
  cases l <;> simp

theorem tail_getElem? (l : List α) (i : Nat) : l.tail[i]? = l[i + 1]? := by
  cases l <;> simp

theorem filterMap_tail_getElem? (ls : List (List α)) (i : Nat) :
    (ls.map List.tail).filterMap (fun l => l[i]?) =
      ls.filterMap (fun l => l[i + 1]?) := by
  rw [List.filterMap_map]
  exact congrArg (fun f => List.filterMap f ls) (funext fun l => tail_getElem? l i)

theorem roundsList_eq_range_aux :
    ∀ (n : Nat) (ls : List (List α)), maxLen ls = n →
      roundsList ls = (List.range n).map (fun i => ls.filterMap (fun l => l[i]?)) := by
  intro n
  induction n with
  | zero =>
    intro ls hn
    have hall : ∀ l ∈ ls, l = [] := (maxLen_eq_zero_iff ls).mp hn
    have hie : (ls.filterMap List.head?).isEmpty = true :=
      List.isEmpty_iff.mpr ((filterMap_head?_eq_nil_iff ls).mpr hall)
    unfold roundsList
    simp [hie]
  | succ n ih =>
    intro ls hn
    have hne : ¬ ∀ l ∈ ls, l = [] := by
      intro hall
      have := (maxLen_eq_zero_iff ls).mpr hall
      omega
    have hie : ¬ (ls.filterMap List.head?).isEmpty = true := by
      intro habs
      exact hne ((filterMap_head?_eq_nil_iff ls).mp (List.isEmpty_iff.mp habs))
    have htail : maxLen (ls.map List.tail) = n := by
      rw [maxLen_map_tail, hn]
      omega
    have ihr := ih (ls.map List.tail) htail
    unfold roundsList
    rw [dif_neg hie, ihr, List.range_succ_eq_map, List.map_cons]
    congr 1
    · exact congrArg (fun f => List.filterMap f ls)
        (funext fun l => head?_eq_getElem?_zero l)
    · rw [List.map_map]
      refine List.map_congr_left ?_
      intro i _
      rw [filterMap_tail_getElem?]
      rfl

theorem roundsList_eq_range (ls : List (List α)) :
    roundsList ls =
      (List.range (maxLen ls)).map (fun i => ls.filterMap (fun l => l[i]?)) :=
  roundsList_eq_range_aux (maxLen ls) ls rfl

theorem roundsList_length (ls : List (List α)) :
    (roundsList ls).length = maxLen ls := by
  rw [roundsList_eq_range]
  simp

theorem roundsList_getElem? (ls : List (List α)) (i : Nat) :
    (roundsList ls)[i]? =
      if i < maxLen ls then some (ls.filterMap (fun l => l[i]?)) else none := by
  rw [roundsList_eq_range]
  by_cases hi : i < maxLen ls
  · rw [if_pos hi, List.getElem?_map, List.getElem?_range hi]
    rfl
  · rw [if_neg hi]
    refine List.getElem?_eq_none ?_
    simpa using Nat.not_lt.mp hi

theorem roundsSet_eq_map_dedup [DecidableEq α] :
    ∀ (n : Nat) (ls : List (List α)), maxLen ls = n →
      roundsSet ls = (roundsList ls).map List.dedup := by
  intro n
  induction n with
  | zero =>
    intro ls hn
    have hall : ∀ l ∈ ls, l = [] := (maxLen_eq_zero_iff ls).mp hn
    have hie : (ls.filterMap List.head?).isEmpty = true :=
      List.isEmpty_iff.mpr ((filterMap_head?_eq_nil_iff ls).mpr hall)
    unfold roundsSet roundsList
    simp [hie]
  | succ n ih =>
    intro ls hn
    have hne : ¬ ∀ l ∈ ls, l = [] := by
      intro hall
      have := (maxLen_eq_zero_iff ls).mpr hall
      omega
    have hie : ¬ (ls.filterMap List.head?).isEmpty = true := by
      intro habs
      exact hne ((filterMap_head?_eq_nil_iff ls).mp (List.isEmpty_iff.mp habs))
    have htail : maxLen (ls.map List.tail) = n := by
      rw [maxLen_map_tail, hn]
      omega
    unfold roundsSet roundsList
    rw [dif_neg hie, dif_neg hie, ih (ls.map List.tail) htail, List.map_cons]

/-- Embedding of `ListStep.make` (core.py lines 496-514): run every child on the one
upstream value and collect the outputs round by round. -/
def ListStep.make (cs : List (Make α)) (v : α) : List (List α) :=
  roundsList (cs.map (fun f => f v))

/-- Embedding of `DictStep.make` (core.py lines 590-611): each `(key, step)` pair pulls
from `step.make(value)` and tags every pulled value with its key, so each
child is embedded as the stream of key-tagged values and each round is the
association list of the pairs pulled this round, in child order (the round
dict of the source, whose keys are the not-yet-exhausted children's
keys). -/
def DictStep.make (cs : List (κ × Make α)) (v : α) : List (List (κ × α)) :=
  roundsList (cs.map (fun p => (p.2 v).map (fun x => (p.1, x))))

/-- Embedding of `SetStep.make` (core.py lines 675-693): run every child on the one
upstream value and collect the outputs round by round into sets (each set
modelled by its list of members with duplicates removed). -/
def SetStep.make [DecidableEq α] (cs : List (Make α)) (v : α) : List (List α) :=
  roundsSet (cs.map (fun f => f v))

end RoundPackers

section ClaimC5

variable {α : Type} {κ : Type}

/-- C5: for the ordered-list, keyed-map and unordered-set packers, the
number of yielded output positions equals the maximum of the children's
output lengths, and at output index `i` the yielded collection carries an
entry from child `c` exactly when `c`'s output length exceeds `i`: the
list round is exactly the `i`-th elements of the still-alive children in
child order, the dict round those elements tagged with their child's key,
and the set round has `x` as a member iff some child's output has `x` at
index `i`. -/
theorem listDictSet_make_spec [DecidableEq α]
    (lcs scs : List (Make α)) (dcs : List (κ × Make α)) (v : α) :
    ((ListStep.make lcs v).length = maxLen (lcs.map (fun f => f v)) ∧
      ∀ i : Nat, (ListStep.make lcs v)[i]? =
        if i < maxLen (lcs.map (fun f => f v)) then
          some ((lcs.map (fun f => f v)).filterMap (fun l => l[i]?))
        else none) ∧
    ((DictStep.make dcs v).length = maxLen (dcs.map (fun p => p.2 v)) ∧
      ∀ i : Nat, (DictStep.make dcs v)[i]? =
        if i < maxLen (dcs.map (fun p => p.2 v)) then
          some (dcs.filterMap (fun p => ((p.2 v)[i]?).map (fun x => (p.1, x))))
        else none) ∧
    ((SetStep.make scs v).length = maxLen (scs.map (fun f => f v)) ∧
      ∀ (i : Nat) (x : α), x ∈ (SetStep.make scs v).getD i [] ↔
        (i < maxLen (scs.map (fun f => f v)) ∧ ∃ f ∈ scs, (f v)[i]? = some x)) := by
  have hml : maxLen (dcs.map (fun p => (p.2 v).map (fun x => (p.1, x)))) =
      maxLen (dcs.map (fun p => p.2 v)) := by
    unfold maxLen
    rw [List.map_map, List.map_map]
    congr 1
    refine List.map_congr_left ?_
    intro p _
    simp
  have hfm : ∀ i : Nat,
      (dcs.map (fun p => (p.2 v).map (fun x => (p.1, x)))).filterMap
          (fun l => l[i]?) =
        dcs.filterMap (fun p => ((p.2 v)[i]?).map (fun x => (p.1, x))) := by
    intro i
    rw [List.filterMap_map]
    refine congrArg (fun f => List.filterMap f dcs) (funext fun p => ?_)
    simp [List.getElem?_map]
  have hset : SetStep.make scs v =
      (roundsList (scs.map (fun f => f v))).map List.dedup :=
    roundsSet_eq_map_dedup (maxLen (scs.map (fun f => f v))) _ rfl
  refine ⟨⟨roundsList_length _, fun i => roundsList_getElem? _ i⟩, ⟨?_, ?_⟩, ?_, ?_⟩
  · unfold DictStep.make
    rw [roundsList_length, hml]
  · intro i
    unfold DictStep.make
    rw [roundsList_getElem?, hml, hfm]
  · rw [hset, List.length_map, roundsList_length]
  · intro i x
    rw [hset]
    by_cases hi : i < maxLen (scs.map (fun f => f v))
    · have hget : ((roundsList (scs.map (fun f => f v))).map List.dedup).getD i [] =
          ((scs.map (fun f => f v)).filterMap (fun l => l[i]?)).dedup := by
        rw [List.getD_eq_getElem?_getD, List.getElem?_map, roundsList_getElem?,
          if_pos hi]
        rfl
      rw [hget]
      constructor
      · intro hx
        refine ⟨hi, ?_⟩
        obtain ⟨l, hl, hlx⟩ := List.mem_filterMap.mp (List.mem_dedup.mp hx)
        obtain ⟨f, hf, rfl⟩ := List.mem_map.mp hl
        exact ⟨f, hf, hlx⟩
      · rintro ⟨-, f, hf, hfx⟩
        refine List.mem_dedup.mpr (List.mem_filterMap.mpr ?_)
        exact ⟨f v, List.mem_map.mpr ⟨f, hf, rfl⟩, hfx⟩
    · have hget : ((roundsList (scs.map (fun f => f v))).map List.dedup).getD i [] =
          ([] : List α) := by
        rw [List.getD_eq_getElem?_getD, List.getElem?_map, roundsList_getElem?,
          if_neg hi]
        rfl
      rw [hget]
      simp [hi]

end ClaimC5

section ClaimC10

variable {α : Type}

/-- C10: in the unordered-set packer, values pulled from different children
in the same round that compare equal collapse into a single element: round
`i` is the deduplication of the `i`-th elements of the still-alive
children, it has no duplicates, its size is at most the number of children
that yielded a value this round, and the packer still stops exactly at the
first round in which no child yields (the output length is the maximum
child output length). -/
theorem setStep_round_collapse [DecidableEq α] (scs : List (Make α)) (v : α)
    (i : Nat) (h : i < maxLen (scs.map (fun f => f v))) :
    (SetStep.make scs v)[i]? =
      some (((scs.map (fun f => f v)).filterMap (fun l => l[i]?)).dedup) ∧
    (((scs.map (fun f => f v)).filterMap (fun l => l[i]?)).dedup).Nodup ∧
    (((scs.map (fun f => f v)).filterMap (fun l => l[i]?)).dedup).length ≤
      ((scs.map (fun f => f v)).filterMap (fun l => l[i]?)).length ∧
    (SetStep.make scs v).length = maxLen (scs.map (fun f => f v)) := by
  have hset : SetStep.make scs v =
      (roundsList (scs.map (fun f => f v))).map List.dedup :=
    roundsSet_eq_map_dedup (maxLen (scs.map (fun f => f v))) _ rfl
  refine ⟨?_, List.nodup_dedup _, (List.dedup_sublist _).length_le, ?_⟩
  · rw [hset, List.getElem?_map, roundsList_getElem?, if_pos h]
    rfl
  · rw [hset, List.length_map, roundsList_length]

/-- A child step with a one-element constant output, used twice in the
collapse witness so that the two pulled values compare equal. -/
def kc : Make Nat := fun _ => [5]

theorem setStep_round_collapse_witness :
    (SetStep.make [kc, kc] 0)[0]? = some [5] ∧
    ([kc, kc] : List (Make Nat)).length = 2 := by
  have h := (setStep_round_collapse [kc, kc] 0 0 (by decide)).1
  rw [h]
  exact ⟨by decide, rfl⟩

end ClaimC10

section Construction

/-- Syntactic step objects, one constructor per concrete class of
`monapy/step/core.py`.  `atom` stands for an arbitrary user-defined
concrete step (distinguished by an identifier); dict keys are modelled by
naturals. -/
inductive Stp : Type where
  | base : Stp
  | atom : Nat → Stp
  | chain : List Stp → Stp
  | loopS : Stp → Stp → Stp
  | unionS : Stp → Stp
  | orChain : List Stp → Stp
  | tupleS : List Stp → Stp
  | listS : List Stp → Stp
  | dictS : List (Nat × Stp) → Stp
  | setS : List Stp → Stp

/-- A dynamic Python value as seen by `to_step`: a step, one of the four
supported containers (tuples and lists keep order; a dict is a keyed
sequence; a Python set is modelled by the list of its members), or any
other object. -/
inductive PyObj : Type where
  | step : Stp → PyObj
  | tup : List PyObj → PyObj
  | lst : List PyObj → PyObj
  | dct : List (Nat × PyObj) → PyObj
  | set : List PyObj → PyObj
  | other : PyObj

/-- The exception classes raised by the construction surface. -/
inductive PyErr : Type where
  | typeError : PyErr
  | valueError : PyErr

/-- The member scan shared by the packer constructors: succeed with the
unwrapped steps when every member is a step (`isinstance(step, Step)`),
fail otherwise. -/
def stepsOf : List PyObj → Option (List Stp)
  | [] => some []
  | PyObj.step s :: rest => (stepsOf rest).map (fun ss => s :: ss)
  | _ => none

/-- The member scan of `DictStep.__init__`: every dict value must be a
step. -/
def stepsOfD : List (Nat × PyObj) → Option (List (Nat × Stp))
  | [] => some []
  | (k, PyObj.step s) :: rest => (stepsOfD rest).map (fun ss => (k, s) :: ss)
  | _ => none

/-- Embedding of `TupleStep.__init__` (core.py lines 368-376): `TypeError` unless every
member is a step. -/
def TupleStep.new (xs : List PyObj) : Except PyErr Stp :=
  match stepsOf xs with
  | some ss => Except.ok (Stp.tupleS ss)
  | none => Except.error PyErr.typeError

/-- Embedding of `ListStep.__init__` (core.py lines 437-445). -/
def ListStep.new (xs : List PyObj) : Except PyErr Stp :=
  match stepsOf xs with
  | some ss => Except.ok (Stp.listS ss)
  | none => Except.error PyErr.typeError

/-- Embedding of `DictStep.__init__` (core.py lines 518-530). -/
def DictStep.new (kvs : List (Nat × PyObj)) : Except PyErr Stp :=
  match stepsOfD kvs with
  | some ss => Except.ok (Stp.dictS ss)
  | none => Except.error PyErr.typeError

/-- Embedding of `SetStep.__init__` (core.py lines 615-623). -/
def SetStep.new (xs : List PyObj) : Except PyErr Stp :=
  match stepsOf xs with
  | some ss => Except.ok (Stp.setS ss)
  | none => Except.error PyErr.typeError

/-- Embedding of `to_step` (core.py lines 20-35): a step passes through, each supported
container kind is lifted into the matching packer constructor, and any
other object raises `TypeError`. -/
def to_step : PyObj → Except PyErr Stp
  | PyObj.step s => Except.ok s
  | PyObj.tup xs => TupleStep.new xs
  | PyObj.lst xs => ListStep.new xs
  | PyObj.dct kvs => DictStep.new kvs
  | PyObj.set xs => SetStep.new xs
  | PyObj.other => Except.error PyErr.typeError

/-- Embedding of `list(map(to_step, steps))`: convert the members left to right, the
first exception wins. -/
def mapToStep : List PyObj → Except PyErr (List Stp)
  | [] => Except.ok []
  | x :: rest =>
    match to_step x with
    | Except.error e => Except.error e
    | Except.ok s =>
      match mapToStep rest with
      | Except.error e => Except.error e
      | Except.ok ss => Except.ok (s :: ss)

/-- Embedding of `StepChain.__init__` (core.py lines 97-100): `ValueError` on an empty
sequence, otherwise `to_step` every member. -/
def StepChain.new (xs : List PyObj) : Except PyErr Stp :=
  if xs.isEmpty then Except.error PyErr.valueError
  else
    match mapToStep xs with
    | Except.error e => Except.error e
    | Except.ok ss => Except.ok (Stp.chain ss)

/-- The `bind` dispatch: `StepChain.bind` (lines 106-109) appends to the owned
chain and returns the same chain; every other step's `bind` (lines 58-60
and 186-188) builds a fresh two-element chain. -/
def stepBind : Stp → Stp → Stp
  | Stp.chain cs, t => Stp.chain (cs ++ [t])
  | s, t => Stp.chain [s, t]

/-- The `loop` dispatch: `StepChain.loop` (lines 111-116) pops the last owned
step, wraps it with the argument into a `LoopStep` and re-appends it
(`none` models the `IndexError` of popping from an empty chain); every
other step's `loop` (lines 62-64) builds a plain `LoopStep`. -/
def stepLoopMeth : Stp → Stp → Option Stp
  | Stp.chain cs, c =>
    match cs.getLast? with
    | none => none
    | some last => some (Stp.chain (cs.dropLast ++ [Stp.loopS last c]))
  | s, c => some (Stp.loopS s c)

theorem stepsOf_all_steps {xs : List PyObj} (h : ∀ x ∈ xs, ∃ s, x = PyObj.step s) :
    ∃ ss, stepsOf xs = some ss := by
  induction xs with
  | nil => exact ⟨[], rfl⟩
  | cons x rest ih =>
    obtain ⟨s, hs⟩ := h x (by simp)
    subst hs
    obtain ⟨ss, hss⟩ := ih (fun y hy => h y (by simp [hy]))
    exact ⟨s :: ss, by simp [stepsOf, hss]⟩

theorem stepsOf_not_step {xs : List PyObj} (h : ∃ x ∈ xs, ∀ s, x ≠ PyObj.step s) :
    stepsOf xs = none := by
  induction xs with
  | nil => simp at h
  | cons x rest ih =>
    obtain ⟨y, hy, hns⟩ := h
    rcases List.mem_cons.mp hy with hy | hy
    · subst hy
      cases y with
      | step s => exact absurd rfl (hns s)
      | tup l => rfl
      | lst l => rfl
      | dct l => rfl
      | set l => rfl
      | other => rfl
    · have hrest : stepsOf rest = none := ih ⟨y, hy, hns⟩
      cases x with
      | step s => simp [stepsOf, hrest]
      | tup l => rfl
      | lst l => rfl
      | dct l => rfl
      | set l => rfl
      | other => rfl

theorem stepsOfD_all_steps {kvs : List (Nat × PyObj)}
    (h : ∀ p ∈ kvs, ∃ t, p.2 = PyObj.step t) :
    ∃ ss, stepsOfD kvs = some ss := by
  induction kvs with
  | nil => exact ⟨[], rfl⟩
  | cons p rest ih =>
    obtain ⟨t, ht⟩ := h p (by simp)
    obtain ⟨ss, hss⟩ := ih (fun q hq => h q (by simp [hq]))
    obtain ⟨k, v⟩ := p
    simp only at ht
    subst ht
    exact ⟨(k, t) :: ss, by simp [stepsOfD, hss]⟩

theorem stepsOfD_not_step {kvs : List (Nat × PyObj)}
    (h : ∃ p ∈ kvs, ∀ t, p.2 ≠ PyObj.step t) :
    stepsOfD kvs = none := by
  induction kvs with
  | nil => simp at h
  | cons p rest ih =>
    obtain ⟨q, hq, hns⟩ := h
    rcases List.mem_cons.mp hq with hq | hq
    · subst hq
      obtain ⟨k, v⟩ := q
      cases v with
      | step t => exact absurd rfl (hns t)
      | tup l => rfl
      | lst l => rfl
      | dct l => rfl
      | set l => rfl
      | other => rfl
    · have hrest : stepsOfD rest = none := ih ⟨q, hq, hns⟩
      obtain ⟨k, v⟩ := p
      cases v with
      | step t => simp [stepsOfD, hrest]
      | tup l => rfl
      | lst l => rfl
      | dct l => rfl
      | set l => rfl
      | other => rfl

theorem mapToStep_all_steps {xs : List PyObj}
    (h : ∀ x ∈ xs, ∃ s, x = PyObj.step s) :
    ∃ ss : List Stp, ss.length = xs.length ∧ mapToStep xs = Except.ok ss := by
  induction xs with
  | nil => exact ⟨[], rfl, rfl⟩
  | cons x rest ih =>
    obtain ⟨s, hs⟩ := h x (by simp)
    subst hs
    obtain ⟨ss, hlen, hss⟩ := ih (fun z hz => h z (by simp [hz]))
    exact ⟨s :: ss, by simp [hlen], by simp [mapToStep, to_step, hss]⟩

end Construction

section ClaimC6

/-- C6: constructing a `StepChain` from an empty sequence fails immediately
with a `ValueError`, and only the failure escapes (the `Except` result
carries no chain object); for every non-empty sequence of steps the
construction succeeds with the non-empty owned chain. -/
theorem stepChain_new_spec (xs : List PyObj) :
    (xs = [] → StepChain.new xs = Except.error PyErr.valueError) ∧
    (xs ≠ [] → (∀ x ∈ xs, ∃ s, x = PyObj.step s) →
      ∃ ss : List Stp, ss ≠ [] ∧ StepChain.new xs = Except.ok (Stp.chain ss)) := by
  constructor
  · intro h
    subst h
    rfl
  · intro hne hall
    obtain ⟨ss, hlen, hss⟩ := mapToStep_all_steps hall
    have hie : xs.isEmpty = false := by
      cases xs with
      | nil => exact absurd rfl hne
      | cons a t => rfl
    refine ⟨ss, ?_, ?_⟩
    · intro hnil
      rw [hnil, List.length_nil] at hlen
      exact hne (List.length_eq_zero.mp hlen.symm)
    · simp [StepChain.new, hie, hss]

theorem stepChain_new_spec_witness :
    (StepChain.new [] = Except.error PyErr.valueError) ∧
    (∃ ss : List Stp, ss ≠ [] ∧
      StepChain.new [PyObj.step Stp.base] = Except.ok (Stp.chain ss)) := by
  refine ⟨(stepChain_new_spec []).1 rfl, ?_⟩
  refine (stepChain_new_spec [PyObj.step Stp.base]).2 (by simp) ?_
  intro x hx
  rw [List.mem_singleton.mp hx]
  exact ⟨Stp.base, rfl⟩

end ClaimC6

section ClaimC7

/-- C7: `to_step` passes a step through, lifts a tuple, list, dict or set
of steps into the matching packer, and fails with a `TypeError` for any
other input shape; a container holding a member that is not a step fails
with a `TypeError` at lift time (the `Except` value is the construction
itself, so the failure is never deferred to evaluation). -/
theorem to_step_spec (s : Stp) (xs : List PyObj) (kvs : List (Nat × PyObj)) :
    (to_step (PyObj.step s) = Except.ok s) ∧
    (to_step PyObj.other = Except.error PyErr.typeError) ∧
    ((∀ x ∈ xs, ∃ t, x = PyObj.step t) →
      (∃ ss, to_step (PyObj.tup xs) = Except.ok (Stp.tupleS ss)) ∧
      (∃ ss, to_step (PyObj.lst xs) = Except.ok (Stp.listS ss)) ∧
      (∃ ss, to_step (PyObj.set xs) = Except.ok (Stp.setS ss))) ∧
    ((∃ x ∈ xs, ∀ t, x ≠ PyObj.step t) →
      to_step (PyObj.tup xs) = Except.error PyErr.typeError ∧
      to_step (PyObj.lst xs) = Except.error PyErr.typeError ∧
      to_step (PyObj.set xs) = Except.error PyErr.typeError) ∧
    ((∀ p ∈ kvs, ∃ t, p.2 = PyObj.step t) →
      ∃ ss, to_step (PyObj.dct kvs) = Except.ok (Stp.dictS ss)) ∧
    ((∃ p ∈ kvs, ∀ t, p.2 ≠ PyObj.step t) →
      to_step (PyObj.dct kvs) = Except.error PyErr.typeError) := by
  refine ⟨rfl, rfl, ?_, ?_, ?_, ?_⟩
  · intro hall
    obtain ⟨ss, hss⟩ := stepsOf_all_steps hall
    exact ⟨⟨ss, by simp [to_step, TupleStep.new, hss]⟩,
      ⟨ss, by simp [to_step, ListStep.new, hss]⟩,
      ⟨ss, by simp [to_step, SetStep.new, hss]⟩⟩
  · intro hbad
    have hnone := stepsOf_not_step hbad
    exact ⟨by simp [to_step, TupleStep.new, hnone],
      by simp [to_step, ListStep.new, hnone],
      by simp [to_step, SetStep.new, hnone]⟩
  · intro hall
    obtain ⟨ss, hss⟩ := stepsOfD_all_steps hall
    exact ⟨ss, by simp [to_step, DictStep.new, hss]⟩
  · intro hbad
    have hnone := stepsOfD_not_step hbad
    simp [to_step, DictStep.new, hnone]

theorem to_step_spec_witness :
    (to_step (PyObj.step Stp.base) = Except.ok Stp.base) ∧
    (∃ ss, to_step (PyObj.tup [PyObj.step Stp.base]) = Except.ok (Stp.tupleS ss)) ∧
    (to_step (PyObj.tup [PyObj.other]) = Except.error PyErr.typeError) := by
  refine ⟨(to_step_spec Stp.base [] []).1, ?_, ?_⟩
  · exact ((to_step_spec Stp.base [PyObj.step Stp.base] []).2.2.1
      (by intro x hx; rw [List.mem_singleton.mp hx]; exact ⟨Stp.base, rfl⟩)).1
  · exact ((to_step_spec Stp.base [PyObj.other] []).2.2.2.1
      ⟨PyObj.other, by simp, by intro t h; cases h⟩).1

end ClaimC7

section ClaimC9

/-- C9: on a chain with owned steps `[s1..sn]` (`n ≥ 1`), `loop(c)` removes
the last owned step `sn` and appends `LoopStep(sn, c)` as the new last
element; consequently `a >> b << c` for a non-chain step `a` produces the
two-element chain `[a, LoopStep(b, c)]`, not a loop around the whole
chain. -/
theorem stepChain_loop_spec (cs : List Stp) (c : Stp) (h : cs ≠ [])
    (a b d : Stp) (ha : ∀ l, a ≠ Stp.chain l) :
    stepLoopMeth (Stp.chain cs) c =
      some (Stp.chain (cs.dropLast ++ [Stp.loopS (cs.getLast h) c])) ∧
    stepLoopMeth (stepBind a b) d = some (Stp.chain [a, Stp.loopS b d]) := by
  constructor
  · have hlast : cs.getLast? = some (cs.getLast h) := List.getLast?_eq_getLast cs h
    simp [stepLoopMeth, hlast]
  · have hbind : stepBind a b = Stp.chain [a, b] := by
      cases a with
      | base => rfl
      | atom n => rfl
      | chain l => exact absurd rfl (ha l)
      | loopS x y => rfl
      | unionS x => rfl
      | orChain l => rfl
      | tupleS l => rfl
      | listS l => rfl
      | dictS l => rfl
      | setS l => rfl
    rw [hbind]
    rfl

theorem stepChain_loop_spec_witness :
    stepLoopMeth (Stp.chain [Stp.atom 1, Stp.atom 2]) (Stp.atom 3) =
      some (Stp.chain [Stp.atom 1, Stp.loopS (Stp.atom 2) (Stp.atom 3)]) ∧
    stepLoopMeth (stepBind (Stp.atom 1) (Stp.atom 2)) (Stp.atom 3) =
      some (Stp.chain [Stp.atom 1, Stp.loopS (Stp.atom 2) (Stp.atom 3)]) := by
  have h := stepChain_loop_spec [Stp.atom 1, Stp.atom 2] (Stp.atom 3)
    (by simp) (Stp.atom 1) (Stp.atom 2) (Stp.atom 3)
    (by intro l hl; cases hl)
  exact ⟨h.1, h.2⟩

end ClaimC9
